import Mathlib

/-!
Shallow embedding of `src/hific/models/hyperprior.py` (real-valued
idealization of the tensor arithmetic).

Tensors are modelled as a 4-dimensional shape together with a total data
function on indices; out-of-range indices carry junk values and all stated
properties quantify over in-range indices or hold pointwise everywhere.
Elementwise torch operations become pointwise operations on the data, taking
the shape of their first operand (the source only combines equal-shaped
tensors, per the collaborator contracts).  Randomness (`torch.nn.init.uniform_`
inside `_quantize`) is modelled by passing the sampled noise values
explicitly.  Python exceptions are modelled with `Except`.
-/

noncomputable section

/-- Module-level constant `MIN_SCALE = 0.11` of hyperprior.py. -/
def MIN_SCALE : ℝ := 0.11

/-- Module-level constant `MIN_LIKELIHOOD = 1e-9` of hyperprior.py. -/
def MIN_LIKELIHOOD : ℝ := 1e-9

/-- Module-level constant `MAX_LIKELIHOOD = 1e3` of hyperprior.py. -/
def MAX_LIKELIHOOD : ℝ := 1e3

/-- `torch.clamp(v, min=lo, max=hi)`. -/
def torchClamp (lo hi v : ℝ) : ℝ := min hi (max lo v)

/-- `torch.round`: rounds to the nearest integer, ties to the even integer
(IEEE round-half-to-even, which is what torch implements). -/
def torchRound (x : ℝ) : ℝ :=
  if x - ⌊x⌋ = 1 / 2 then (if Even ⌊x⌋ then (⌊x⌋ : ℝ) else (⌊x⌋ : ℝ) + 1)
  else ((round x : ℤ) : ℝ)

/-- `torch.sigmoid`. -/
def sigmoid (x : ℝ) : ℝ := 1 / (1 + Real.exp (-x))

/-- `F.softplus`. -/
def softplus (x : ℝ) : ℝ := Real.log (1 + Real.exp x)

/-- `torch.erfc`, modelled by the Gaussian integral
`erfc x = (2/√π) ∫_x^∞ exp(-t²) dt`.  Only its definitional shape is used. -/
def erfc (x : ℝ) : ℝ :=
  2 / Real.sqrt Real.pi * ∫ t in Set.Ioi x, Real.exp (-t ^ 2)

/-- A 4-D tensor `(N, C, H, W)` of reals. -/
structure Tensor where
  N : ℕ
  C : ℕ
  H : ℕ
  W : ℕ
  data : ℕ → ℕ → ℕ → ℕ → ℝ

/-- Elementwise unary operation. -/
def Tensor.map (f : ℝ → ℝ) (t : Tensor) : Tensor :=
  ⟨t.N, t.C, t.H, t.W, fun n c h w => f (t.data n c h w)⟩

/-- Elementwise binary operation on equal-shaped tensors (shape taken from
the first operand). -/
def Tensor.zip (f : ℝ → ℝ → ℝ) (t u : Tensor) : Tensor :=
  ⟨t.N, t.C, t.H, t.W, fun n c h w => f (t.data n c h w) (u.data n c h w)⟩

/-- A constant tensor, used for concrete instances. -/
def constTensor (n c h w : ℕ) (v : ℝ) : Tensor :=
  ⟨n, c, h, w, fun _ _ _ _ => v⟩

namespace CodingModel

/-- `CodingModel._quantize(x, mode)`.  In `'noise'` mode the source samples
uniform noise in `[-0.5, 0.5)` via `torch.nn.init.uniform_`; the sampled
values are passed here explicitly as `noise`.  In `'quantize'` mode the
source applies `torch.round`.  Any other mode raises `NotImplementedError`. -/
def _quantize (x : Tensor) (mode : String) (noise : ℕ → ℕ → ℕ → ℕ → ℝ) :
    Except String Tensor :=
  if mode = "noise" then
    .ok ⟨x.N, x.C, x.H, x.W, fun n c h w => x.data n c h w + noise n c h w⟩
  else if mode = "quantize" then
    .ok (x.map torchRound)
  else
    .error "NotImplementedError"

/-- `CodingModel._estimate_entropy(x, likelihood)`: bit count and
bits-per-pixel.  `torch.sum` runs over the likelihood tensor's own elements;
batch size and pixel count are read off `x`. -/
def _estimate_entropy (x likelihood : Tensor) : ℝ × ℝ :=
  let EPS : ℝ := 1e-9
  let quotient : ℝ := -Real.log 2
  let batch_size : ℝ := x.N
  let n_pixels : ℝ := (x.H : ℝ) * (x.W : ℝ)
  let log_likelihood_sum : ℝ :=
    ∑ n ∈ Finset.range likelihood.N, ∑ c ∈ Finset.range likelihood.C,
      ∑ h ∈ Finset.range likelihood.H, ∑ w ∈ Finset.range likelihood.W,
        Real.log (likelihood.data n c h w + EPS)
  let n_bits := log_likelihood_sum / (batch_size * quotient)
  (n_bits, n_bits / n_pixels)

end CodingModel

/-- `torchRound` at an integer input returns that integer. -/
theorem torchRound_intCast (k : ℤ) : torchRound (k : ℝ) = k := by
  unfold torchRound
  rw [Int.floor_intCast]
  rw [if_neg (by norm_num)]
  rw [round_intCast]

/-- `torchRound` always returns (the cast of) an integer. -/
theorem torchRound_isInt (x : ℝ) : ∃ k : ℤ, torchRound x = (k : ℝ) := by
  unfold torchRound
  by_cases h : x - ⌊x⌋ = 1 / 2
  · rw [if_pos h]
    by_cases he : Even ⌊x⌋
    · exact ⟨⌊x⌋, by rw [if_pos he]⟩
    · exact ⟨⌊x⌋ + 1, by rw [if_neg he]; push_cast; ring⟩
  · exact ⟨round x, by rw [if_neg h]⟩

namespace PriorDensity

/-- `PriorDensity.standardized_CDF`: `0.5 * torch.erfc(value * (-1/√2))`. -/
def standardized_CDF (value : ℝ) : ℝ :=
  0.5 * erfc (value * (-1 / Real.sqrt 2))

/-- One element of `PriorDensity.likelihood(x, mean, scale)`.  The scale is
first clamped below by `scale_lower_bound` (default `MIN_SCALE`); the result
is clamped to `[MIN_LIKELIHOOD, MAX_LIKELIHOOD]`. -/
def likelihoodScalar (x mean scale : ℝ) : ℝ :=
  let scaleClamped := max scale MIN_SCALE
  let xAbs := |x - mean|
  let cdf_upper := standardized_CDF ((0.5 - xAbs) / scaleClamped)
  let cdf_lower := standardized_CDF (-(0.5 + xAbs) / scaleClamped)
  torchClamp MIN_LIKELIHOOD MAX_LIKELIHOOD (cdf_upper - cdf_lower)

/-- `PriorDensity.likelihood` on tensors (all torch operations elementwise). -/
def likelihood (x mean scale : Tensor) : Tensor :=
  ⟨x.N, x.C, x.H, x.W, fun n c h w =>
    likelihoodScalar (x.data n c h w) (mean.data n c h w) (scale.data n c h w)⟩

end PriorDensity

/-- One layer of `HyperpriorDensity.cdf_logits` acting on one column (one
scalar input) for one channel: `logits = bmm(softplus(H_k), logits);
logits += b_k; logits += tanh(a_k) * tanh(logits)`. -/
def layerStep {k m : ℕ} (H : Matrix (Fin m) (Fin k) ℝ) (a b : Fin m → ℝ)
    (v : Fin k → ℝ) : Fin m → ℝ :=
  fun i =>
    let u := Matrix.mulVec (H.map softplus) v i + b i
    u + Real.tanh (a i) * Real.tanh u

/-- The per-channel parameter cascade of `HyperpriorDensity`: a chain of
layers `(H_k, a_k, b_k)` whose inner widths follow `(1,) + filters + (1,)`,
ending at width 1.  `Cascade k` transforms a width-`k` column to width 1. -/
inductive Cascade : ℕ → Type where
  | nil : Cascade 1
  | cons {k m : ℕ} (H : Matrix (Fin m) (Fin k) ℝ) (a b : Fin m → ℝ)
      (rest : Cascade m) : Cascade k

/-- Run the cascade on one column. -/
def Cascade.eval : {k : ℕ} → Cascade k → (Fin k → ℝ) → (Fin 1 → ℝ)
  | _, .nil, v => v
  | _, .cons H a b rest, v => rest.eval (layerStep H a b v)

namespace HyperpriorDensity

/-- `HyperpriorDensity.cdf_logits` evaluated at one scalar for one channel.
In the source the input tensor is reshaped to `(C, 1, N·H·W)` and the layers
act by batched matmul; each of the `N·H·W` columns is processed independently
with the channel's parameters, so the cascade on a single column captures the
per-element computation.  (`update_parameters` only toggles gradient
detaching, which does not change the forward value.) -/
def cdf_logits (cas : Cascade 1) (x : ℝ) : ℝ :=
  (cas.eval fun _ => x) 0

/-- One element of `HyperpriorDensity.likelihood`:
`cdf_logits` at `x ± 0.5`, the sign-flip sigmoid difference, and the final
clamp to `[MIN_LIKELIHOOD, MAX_LIKELIHOOD]`. -/
def likelihoodScalar (cas : Cascade 1) (x : ℝ) : ℝ :=
  let cdf_upper := cdf_logits cas (x + 0.5)
  let cdf_lower := cdf_logits cas (x - 0.5)
  let s := -Real.sign (cdf_upper + cdf_lower)
  let likelihood := |sigmoid (s * cdf_upper) - sigmoid (s * cdf_lower)|
  torchClamp MIN_LIKELIHOOD MAX_LIKELIHOOD likelihood

/-- `HyperpriorDensity.likelihood` on an `(N,C,H,W)` tensor.  The source
permutes to `(C,1,N·H·W)`, applies `cdf_logits`, and permutes back; the
round-trip is the identity on indices, leaving the per-element computation
of `likelihoodScalar` with channel `c`'s parameters. -/
def likelihood (chans : ℕ → Cascade 1) (x : Tensor) : Tensor :=
  ⟨x.N, x.C, x.H, x.W, fun n c h w => likelihoodScalar (chans c) (x.data n c h w)⟩

end HyperpriorDensity

/-- The `HyperInfo` namedtuple.  The two bitstring fields are always `None`
in the source. -/
structure HyperInfo where
  decoded : Tensor
  latent_nbpp : ℝ
  hyperlatent_nbpp : ℝ
  total_nbpp : ℝ
  latent_qbpp : ℝ
  hyperlatent_qbpp : ℝ
  total_qbpp : ℝ
  bitstring : Option (List Bool)
  side_bitstring : Option (List Bool)

namespace Hyperprior

/-- `Hyperprior.quantize_latents(values, means)`: subtract the means, add the
detached residual `floor(v + 0.5) - v`, add the means back.  (`detach` only
affects gradients, not the forward value.) -/
def quantize_latents (values means : Tensor) : Tensor :=
  let centered := values.zip (· - ·) means
  let delta := centered.map fun v => (⌊v + 0.5⌋ : ℝ) - v
  let bypassed := centered.zip (· + ·) delta
  bypassed.zip (· + ·) means

/-- `Hyperprior.forward(latents)`.  The external analysis/synthesis networks
are abstract tensor functions; the two noise draws are passed explicitly;
`training` is the module's training flag.  The Python local
`latents_decoded` is modelled as an `Option`: the non-training branch of the
source assigns the misspelled name `latents_decoder`, so `latents_decoded`
stays unbound there and reading it when building `HyperInfo` raises
`UnboundLocalError`. -/
def forward (chans : ℕ → Cascade 1)
    (analysis_net synthesis_mu synthesis_std : Tensor → Tensor)
    (noiseH noiseL : ℕ → ℕ → ℕ → ℕ → ℝ)
    (training : Bool) (latents : Tensor) : Except String HyperInfo := do
  let hyperlatents := analysis_net latents
  let noisy_hyperlatents ← CodingModel._quantize hyperlatents "noise" noiseH
  let noisy_hyperlatent_likelihood :=
    HyperpriorDensity.likelihood chans noisy_hyperlatents
  let nh := CodingModel._estimate_entropy hyperlatents noisy_hyperlatent_likelihood
  let quantized_hyperlatents ← CodingModel._quantize hyperlatents "quantize" noiseH
  let quantized_hyperlatent_likelihood :=
    HyperpriorDensity.likelihood chans quantized_hyperlatents
  let qh := CodingModel._estimate_entropy quantized_hyperlatents
    quantized_hyperlatent_likelihood
  let hyperlatents_decoded :=
    if training then noisy_hyperlatents else quantized_hyperlatents
  let latent_scales := synthesis_std hyperlatents_decoded
  let latent_means := synthesis_mu hyperlatents_decoded
  let noisy_latents ← CodingModel._quantize latents "noise" noiseL
  let noisy_latent_likelihood :=
    PriorDensity.likelihood noisy_latents latent_means latent_scales
  let nl := CodingModel._estimate_entropy latents noisy_latent_likelihood
  let quantized_latents ← CodingModel._quantize latents "quantize" noiseL
  let quantized_latent_likelihood :=
    PriorDensity.likelihood quantized_latents latent_means latent_scales
  let ql := CodingModel._estimate_entropy quantized_latents
    quantized_latent_likelihood
  let latents_decoded :=
    if training then some (quantize_latents latents latent_means) else none
  match latents_decoded with
  | some decoded =>
      -- fields: decoded, latent_nbpp, hyperlatent_nbpp, total_nbpp,
      -- latent_qbpp, hyperlatent_qbpp, total_qbpp, bitstring, side_bitstring
      .ok ⟨decoded, nl.2, nh.2, nl.2 + nh.2, ql.2, qh.2, ql.2 + qh.2, none, none⟩
  | none => .error "UnboundLocalError: latents_decoded"

end Hyperprior

/-- `torchClamp lo hi` lands in `[lo, hi]` whenever `lo ≤ hi`. -/
theorem torchClamp_mem {lo hi : ℝ} (v : ℝ) (h : lo ≤ hi) :
    lo ≤ torchClamp lo hi v ∧ torchClamp lo hi v ≤ hi := by
  unfold torchClamp
  constructor
  · exact le_min h (le_max_left _ _)
  · exact min_le_left _ _

/-- C2: the forward value of `Hyperprior.quantize_latents(values, means)` is
`mean + round(value - mean)` at every element, where `round x = ⌊x + 1/2⌋`. -/
theorem quantize_latents_forward_value (values means : Tensor) (n c h w : ℕ) :
    (Hyperprior.quantize_latents values means).data n c h w =
      means.data n c h w +
        ((round (values.data n c h w - means.data n c h w) : ℤ) : ℝ) := by
  simp only [Hyperprior.quantize_latents, Tensor.zip, Tensor.map, round_eq]
  have : values.data n c h w - means.data n c h w + 0.5 =
      values.data n c h w - means.data n c h w + 1 / 2 := by norm_num
  rw [this]
  ring

/-- C8: `CodingModel._quantize(x, mode)` errors exactly when `mode` is neither
`'noise'` nor `'quantize'`, and in `'quantize'` mode returns `round(x)`. -/
theorem _quantize_mode_contract (x : Tensor) (noise : ℕ → ℕ → ℕ → ℕ → ℝ) :
    (∀ mode : String,
        (∃ e, CodingModel._quantize x mode noise = .error e) ↔
          mode ≠ "noise" ∧ mode ≠ "quantize") ∧
    CodingModel._quantize x "quantize" noise = .ok (x.map torchRound) := by
  constructor
  · intro mode
    by_cases h1 : mode = "noise"
    · subst h1
      simp [CodingModel._quantize]
    · by_cases h2 : mode = "quantize"
      · subst h2
        simp [CodingModel._quantize]
      · simp [CodingModel._quantize, h1, h2]
  · simp [CodingModel._quantize]

/-- C9: hard quantization is idempotent: quantizing the result of
`_quantize(·, mode='quantize')` again returns it unchanged. -/
theorem _quantize_idempotent (x : Tensor) (noise noise2 : ℕ → ℕ → ℕ → ℕ → ℝ) :
    (CodingModel._quantize x "quantize" noise).bind
        (fun y => CodingModel._quantize y "quantize" noise2) =
      CodingModel._quantize x "quantize" noise := by
  have hq : CodingModel._quantize x "quantize" noise = .ok (x.map torchRound) := by
    rw [CodingModel._quantize, if_neg (by decide), if_pos rfl]
  rw [hq]
  show CodingModel._quantize (x.map torchRound) "quantize" noise2 = _
  rw [CodingModel._quantize, if_neg (by decide), if_pos rfl]
  congr 1
  simp only [Tensor.map]
  congr 1
  funext n c h w
  obtain ⟨k, hk⟩ := torchRound_isInt (x.data n c h w)
  rw [hk, torchRound_intCast]

/-- C4: every element of the likelihood tensors returned by
`PriorDensity.likelihood` and `HyperpriorDensity.likelihood` lies in
`[MIN_LIKELIHOOD, MAX_LIKELIHOOD]`. -/
theorem likelihood_values_bounded (x mean scale : Tensor)
    (chans : ℕ → Cascade 1) (z : Tensor) (n c h w : ℕ) :
    (MIN_LIKELIHOOD ≤ (PriorDensity.likelihood x mean scale).data n c h w ∧
      (PriorDensity.likelihood x mean scale).data n c h w ≤ MAX_LIKELIHOOD) ∧
    (MIN_LIKELIHOOD ≤ (HyperpriorDensity.likelihood chans z).data n c h w ∧
      (HyperpriorDensity.likelihood chans z).data n c h w ≤ MAX_LIKELIHOOD) := by
  have hle : MIN_LIKELIHOOD ≤ MAX_LIKELIHOOD := by
    unfold MIN_LIKELIHOOD MAX_LIKELIHOOD
    norm_num
  constructor
  · simpa [PriorDensity.likelihood, PriorDensity.likelihoodScalar] using
      torchClamp_mem _ hle
  · simpa [HyperpriorDensity.likelihood, HyperpriorDensity.likelihoodScalar]
      using torchClamp_mem _ hle

/-- The conditional-density likelihood formula exactly as the spec words it:
`clamp(Φ((0.5 - |x-μ|)/σ) - Φ(-(0.5 + |x-μ|)/σ))` with `σ = max(scale, 0.11)`
and `Φ v = 0.5 · erfc(-v/√2)`.  Written from the spec, to be compared with
the definition taken from the source. -/
def priorLikelihoodSpec (x mean scale : ℝ) : ℝ :=
  let sigma := max scale MIN_SCALE
  let Phi : ℝ → ℝ := fun v => 0.5 * erfc (-v / Real.sqrt 2)
  torchClamp MIN_LIKELIHOOD MAX_LIKELIHOOD
    (Phi ((0.5 - |x - mean|) / sigma) - Phi (-(0.5 + |x - mean|) / sigma))

/-- C7: `PriorDensity.likelihood` agrees elementwise with the spec formula
`clamp(Φ((0.5-|x-μ|)/σ) - Φ(-(0.5+|x-μ|)/σ))`, `σ = max(scale, 0.11)`,
`Φ v = 0.5·erfc(-v/√2)`. -/
theorem prior_likelihood_matches_spec (x mean scale : Tensor) (n c h w : ℕ) :
    (PriorDensity.likelihood x mean scale).data n c h w =
      priorLikelihoodSpec (x.data n c h w) (mean.data n c h w)
        (scale.data n c h w) := by
  simp only [PriorDensity.likelihood, PriorDensity.likelihoodScalar,
    priorLikelihoodSpec, PriorDensity.standardized_CDF]
  congr 2 <;> ring_nf

/-- `tanh` is strictly above `-1`. -/
theorem neg_one_lt_tanh (c : ℝ) : -1 < Real.tanh c := by
  rw [Real.tanh_eq_sinh_div_cosh, lt_div_iff₀ (Real.cosh_pos c)]
  nlinarith [Real.sinh_add_cosh c, Real.exp_pos c]

/-- `tanh` is strictly below `1`. -/
theorem tanh_lt_one (c : ℝ) : Real.tanh c < 1 := by
  rw [Real.tanh_eq_sinh_div_cosh, div_lt_one (Real.cosh_pos c)]
  exact Real.sinh_lt_cosh c

/-- Derivative of `tanh`. -/
theorem hasDerivAt_tanh (x : ℝ) :
    HasDerivAt Real.tanh (1 / Real.cosh x ^ 2) x := by
  have h := (Real.hasDerivAt_sinh x).div (Real.hasDerivAt_cosh x)
    (Real.cosh_pos x).ne'
  have hfun : (fun y => Real.sinh y / Real.cosh y) = Real.tanh := by
    funext y
    exact (Real.tanh_eq_sinh_div_cosh y).symm
  rw [hfun] at h
  rw [show Real.cosh x * Real.cosh x - Real.sinh x * Real.sinh x = 1 by
    nlinarith [Real.cosh_sq_sub_sinh_sq x]] at h
  exact h

/-- `u ↦ u + c·tanh u` is monotone for `-1 ≤ c` (the layer's final step with
`c = tanh a_k`). -/
theorem tanh_comb_monotone {c : ℝ} (hc : -1 ≤ c) :
    Monotone (fun u : ℝ => u + c * Real.tanh u) := by
  have hdt : Differentiable ℝ Real.tanh := fun u =>
    (hasDerivAt_tanh u).differentiableAt
  apply monotone_of_deriv_nonneg
  · exact differentiable_id.add (hdt.const_mul c)
  · intro u
    have hd : HasDerivAt (fun u : ℝ => u + c * Real.tanh u)
        (1 + c * (1 / Real.cosh u ^ 2)) u :=
      (hasDerivAt_id u).add ((hasDerivAt_tanh u).const_mul c)
    rw [hd.deriv]
    have h1 : (1 : ℝ) / Real.cosh u ^ 2 ≤ 1 := by
      rw [div_le_one (by positivity)]
      nlinarith [Real.one_le_cosh u]
    have h2 : (0 : ℝ) ≤ 1 / Real.cosh u ^ 2 := by positivity
    nlinarith [mul_nonneg (by linarith : (0 : ℝ) ≤ c + 1) h2]

/-- `softplus` is nonnegative. -/
theorem softplus_nonneg (t : ℝ) : 0 ≤ softplus t := by
  unfold softplus
  apply Real.log_nonneg
  nlinarith [Real.exp_pos t]

/-- One cascade layer is monotone (nonnegative `softplus` weights, then a
monotone scalar step). -/
theorem layerStep_mono {k m : ℕ} (H : Matrix (Fin m) (Fin k) ℝ)
    (a b : Fin m → ℝ) {v w : Fin k → ℝ} (hvw : ∀ j, v j ≤ w j) (i : Fin m) :
    layerStep H a b v i ≤ layerStep H a b w i := by
  have hu : Matrix.mulVec (H.map softplus) v i + b i ≤
      Matrix.mulVec (H.map softplus) w i + b i := by
    apply add_le_add_right
    simp only [Matrix.mulVec, Matrix.dotProduct, Matrix.map_apply]
    apply Finset.sum_le_sum
    intro j _
    exact mul_le_mul_of_nonneg_left (hvw j) (softplus_nonneg (H i j))
  simp only [layerStep]
  exact tanh_comb_monotone (neg_one_lt_tanh (a i)).le hu

/-- The whole cascade is monotone. -/
theorem Cascade.eval_mono : ∀ {k : ℕ} (cas : Cascade k) {v w : Fin k → ℝ},
    (∀ j, v j ≤ w j) → ∀ i, cas.eval v i ≤ cas.eval w i := by
  intro k cas
  induction cas with
  | nil => intro v w h i; exact h i
  | cons H a b rest ih =>
      intro v w h i
      exact ih (fun j => layerStep_mono H a b h j) i

/-- C6: `HyperpriorDensity.cdf_logits` is non-decreasing in its input for
fixed (arbitrary) per-layer parameters: `x1 < x2` gives
`cdf_logits(x1) ≤ cdf_logits(x2)`. -/
theorem cdf_logits_monotone (cas : Cascade 1) (x1 x2 : ℝ) (h : x1 < x2) :
    HyperpriorDensity.cdf_logits cas x1 ≤ HyperpriorDensity.cdf_logits cas x2 :=
  Cascade.eval_mono cas (fun _ => h.le) 0

/-- Witness for C6 at a concrete cascade and inputs. -/
theorem cdf_logits_monotone_witness :
    (0 : ℝ) < 1 ∧
      HyperpriorDensity.cdf_logits Cascade.nil 0 ≤
        HyperpriorDensity.cdf_logits Cascade.nil 1 :=
  ⟨by norm_num, cdf_logits_monotone Cascade.nil 0 1 (by norm_num)⟩

/-- `sigmoid (-t) = 1 - sigmoid t`. -/
theorem sigmoid_neg (t : ℝ) : sigmoid (-t) = 1 - sigmoid t := by
  unfold sigmoid
  rw [neg_neg, Real.exp_neg]
  have h := Real.exp_pos t
  have h1 : Real.exp t ≠ 0 := ne_of_gt h
  have h2 : (1 : ℝ) + Real.exp t ≠ 0 := by positivity
  have h3 : (1 : ℝ) + (Real.exp t)⁻¹ ≠ 0 := by positivity
  field_simp
  ring

/-- `sigmoid` is monotone. -/
theorem sigmoid_mono {s t : ℝ} (h : s ≤ t) : sigmoid s ≤ sigmoid t := by
  unfold sigmoid
  apply one_div_le_one_div_of_le
  · positivity
  · have := Real.exp_le_exp.mpr (neg_le_neg h)
    linarith

/-- C5: with `U = cdf_logits(x+0.5)`, `L = cdf_logits(x-0.5)` and
`s = -sign(U+L)`, the pre-clamp likelihood `|sigmoid(s·U) - sigmoid(s·L)|`
equals `sigmoid U - sigmoid L` whenever `U + L ≠ 0`; when `U + L = 0` the
sign factor is `0`, the pre-clamp likelihood is `0`, and the returned value
is `MIN_LIKELIHOOD`. -/
theorem hyperprior_sign_flip (cas : Cascade 1) (x U L : ℝ)
    (hU : U = HyperpriorDensity.cdf_logits cas (x + 0.5))
    (hL : L = HyperpriorDensity.cdf_logits cas (x - 0.5)) :
    (U + L ≠ 0 →
        |sigmoid (-Real.sign (U + L) * U) - sigmoid (-Real.sign (U + L) * L)| =
          sigmoid U - sigmoid L) ∧
    (U + L = 0 →
        -Real.sign (U + L) = 0 ∧
        |sigmoid (-Real.sign (U + L) * U) - sigmoid (-Real.sign (U + L) * L)|
            = 0 ∧
        HyperpriorDensity.likelihoodScalar cas x = MIN_LIKELIHOOD) := by
  have hLU : L ≤ U := by
    rw [hU, hL]
    exact Cascade.eval_mono cas (fun _ => by norm_num; linarith) 0
  have hsig : sigmoid L ≤ sigmoid U := sigmoid_mono hLU
  constructor
  · intro hne
    rcases lt_or_gt_of_ne hne with hneg | hpos
    · rw [Real.sign_of_neg hneg]
      rw [show -(-1 : ℝ) * U = U by ring, show -(-1 : ℝ) * L = L by ring]
      exact abs_of_nonneg (by linarith)
    · rw [Real.sign_of_pos hpos]
      rw [show -(1 : ℝ) * U = -U by ring, show -(1 : ℝ) * L = -L by ring]
      rw [sigmoid_neg, sigmoid_neg]
      rw [show (1 : ℝ) - sigmoid U - (1 - sigmoid L) = -(sigmoid U - sigmoid L)
        by ring]
      rw [abs_neg]
      exact abs_of_nonneg (by linarith)
  · intro heq
    refine ⟨by rw [heq, Real.sign_zero, neg_zero], ?_, ?_⟩
    · rw [heq, Real.sign_zero, neg_zero]
      simp
    · unfold HyperpriorDensity.likelihoodScalar
      rw [← hU, ← hL]
      simp only [heq, Real.sign_zero, neg_zero, zero_mul, sub_self, abs_zero]
      unfold torchClamp MIN_LIKELIHOOD MAX_LIKELIHOOD
      norm_num

/-- Witness for C5: the degenerate `U + L = 0` case hit concretely by the
empty cascade at `x = 0` forces the returned likelihood to the floor. -/
theorem hyperprior_sign_flip_witness :
    HyperpriorDensity.likelihoodScalar Cascade.nil 0 = MIN_LIKELIHOOD := by
  have hU : (0.5 : ℝ) = HyperpriorDensity.cdf_logits Cascade.nil (0 + 0.5) := by
    simp [HyperpriorDensity.cdf_logits, Cascade.eval]
  have hL : (-0.5 : ℝ) = HyperpriorDensity.cdf_logits Cascade.nil (0 - 0.5) := by
    simp [HyperpriorDensity.cdf_logits, Cascade.eval]
  exact ((hyperprior_sign_flip Cascade.nil 0 0.5 (-0.5) hU hL).2
    (by norm_num)).2.2

/-- C3 (amended): bits-per-pixel is non-negative when every likelihood
element lies in `[MIN_LIKELIHOOD, 1 - 1e-9]` (so that `likelihood + EPS ≤ 1`;
the clamp's upper end `MAX_LIKELIHOOD = 1e3` does not guarantee this), and
uniformly decreasing a valid likelihood tensor strictly increases
bits-per-pixel. -/
theorem estimate_entropy_sign_and_monotone (x L1 L2 : Tensor)
    (hxN : 0 < x.N) (hxH : 0 < x.H) (hxW : 0 < x.W)
    (hdN : L1.N = L2.N) (hdC : L1.C = L2.C) (hdH : L1.H = L2.H)
    (hdW : L1.W = L2.W)
    (hnN : 0 < L1.N) (hnC : 0 < L1.C) (hnH : 0 < L1.H) (hnW : 0 < L1.W) :
    ((∀ n < L1.N, ∀ c < L1.C, ∀ h < L1.H, ∀ w < L1.W,
        MIN_LIKELIHOOD ≤ L1.data n c h w ∧ L1.data n c h w ≤ 1 - 1e-9) →
      0 ≤ (CodingModel._estimate_entropy x L1).2) ∧
    ((∀ n < L1.N, ∀ c < L1.C, ∀ h < L1.H, ∀ w < L1.W,
        MIN_LIKELIHOOD ≤ L1.data n c h w ∧
          L1.data n c h w < L2.data n c h w ∧
          L2.data n c h w ≤ MAX_LIKELIHOOD) →
      (CodingModel._estimate_entropy x L2).2 <
        (CodingModel._estimate_entropy x L1).2) := by
  have hlog2 : 0 < Real.log 2 := Real.log_pos (by norm_num)
  have hden : (x.N : ℝ) * -Real.log 2 < 0 := by
    apply mul_neg_of_pos_of_neg
    · exact_mod_cast hxN
    · linarith
  have hpix : (0 : ℝ) < (x.H : ℝ) * (x.W : ℝ) := by
    apply mul_pos <;> exact_mod_cast by assumption
  constructor
  · intro hb
    simp only [CodingModel._estimate_entropy]
    have hsum : (∑ n ∈ Finset.range L1.N, ∑ c ∈ Finset.range L1.C,
        ∑ h ∈ Finset.range L1.H, ∑ w ∈ Finset.range L1.W,
          Real.log (L1.data n c h w + 1e-9)) ≤ 0 := by
      apply Finset.sum_nonpos
      intro n hn
      apply Finset.sum_nonpos
      intro c hc
      apply Finset.sum_nonpos
      intro h hh
      apply Finset.sum_nonpos
      intro w hw
      obtain ⟨hlo, hhi⟩ := hb n (Finset.mem_range.mp hn) c (Finset.mem_range.mp hc)
        h (Finset.mem_range.mp hh) w (Finset.mem_range.mp hw)
      apply Real.log_nonpos
      · have : (0 : ℝ) < MIN_LIKELIHOOD := by unfold MIN_LIKELIHOOD; norm_num
        linarith
      · linarith
    apply div_nonneg _ hpix.le
    rw [← neg_div_neg_eq]
    exact div_nonneg (by linarith) (by linarith)
  · intro hb
    simp only [CodingModel._estimate_entropy, ← hdN, ← hdC, ← hdH, ← hdW]
    have hmin : (0 : ℝ) < MIN_LIKELIHOOD := by unfold MIN_LIKELIHOOD; norm_num
    have hsum : (∑ n ∈ Finset.range L1.N, ∑ c ∈ Finset.range L1.C,
        ∑ h ∈ Finset.range L1.H, ∑ w ∈ Finset.range L1.W,
          Real.log (L1.data n c h w + 1e-9)) <
        ∑ n ∈ Finset.range L1.N, ∑ c ∈ Finset.range L1.C,
        ∑ h ∈ Finset.range L1.H, ∑ w ∈ Finset.range L1.W,
          Real.log (L2.data n c h w + 1e-9) := by
      apply Finset.sum_lt_sum_of_nonempty
        (Finset.nonempty_range_iff.mpr hnN.ne')
      intro n hn
      apply Finset.sum_lt_sum_of_nonempty
        (Finset.nonempty_range_iff.mpr hnC.ne')
      intro c hc
      apply Finset.sum_lt_sum_of_nonempty
        (Finset.nonempty_range_iff.mpr hnH.ne')
      intro h hh
      apply Finset.sum_lt_sum_of_nonempty
        (Finset.nonempty_range_iff.mpr hnW.ne')
      intro w hw
      obtain ⟨hlo, hlt, _⟩ := hb n (Finset.mem_range.mp hn) c
        (Finset.mem_range.mp hc) h (Finset.mem_range.mp hh) w
        (Finset.mem_range.mp hw)
      apply Real.log_lt_log
      · have he : (0 : ℝ) < 1e-9 := by norm_num
        have : (0 : ℝ) ≤ L1.data n c h w := by
          unfold MIN_LIKELIHOOD at hlo
          linarith
        linarith
      · linarith
    apply div_lt_div_of_pos_right _ hpix
    exact div_lt_div_of_neg_of_lt hden hsum

/-- Counterexample to C3 as stated: the constant likelihood tensor `1000`
lies in the clamped interval `[MIN_LIKELIHOOD, MAX_LIKELIHOOD]`, yet
`_estimate_entropy` reports a strictly negative bits-per-pixel for it. -/
theorem estimate_entropy_nonneg_counterexample :
    (MIN_LIKELIHOOD ≤ (1000 : ℝ) ∧ (1000 : ℝ) ≤ MAX_LIKELIHOOD) ∧
      (CodingModel._estimate_entropy (constTensor 1 1 1 1 0)
        (constTensor 1 1 1 1 1000)).2 < 0 := by
  constructor
  · unfold MIN_LIKELIHOOD MAX_LIKELIHOOD
    norm_num
  · simp only [CodingModel._estimate_entropy, constTensor,
      Finset.sum_range_one]
    have h1 : (0 : ℝ) < Real.log (1000 + 1e-9) := Real.log_pos (by norm_num)
    have h2 : (0 : ℝ) < Real.log 2 := Real.log_pos (by norm_num)
    have h3 : Real.log (1000 + 1e-9) / ((1 : ℝ) * -Real.log 2) < 0 := by
      apply div_neg_of_pos_of_neg h1
      linarith
    push_cast
    calc Real.log (1000 + 1e-9) / ((1 : ℝ) * -Real.log 2) / ((1 : ℝ) * 1)
        = Real.log (1000 + 1e-9) / ((1 : ℝ) * -Real.log 2) := by ring
      _ < 0 := h3

/-- Witness for the amended C3 at concrete `1×1×1×1` tensors. -/
theorem estimate_entropy_sign_witness :
    0 ≤ (CodingModel._estimate_entropy (constTensor 1 1 1 1 0)
        (constTensor 1 1 1 1 (1 / 4))).2 ∧
      (CodingModel._estimate_entropy (constTensor 1 1 1 1 0)
        (constTensor 1 1 1 1 (1 / 2))).2 <
        (CodingModel._estimate_entropy (constTensor 1 1 1 1 0)
        (constTensor 1 1 1 1 (1 / 4))).2 := by
  have h := estimate_entropy_sign_and_monotone (constTensor 1 1 1 1 0)
    (constTensor 1 1 1 1 (1 / 4)) (constTensor 1 1 1 1 (1 / 2))
    (by norm_num [constTensor]) (by norm_num [constTensor])
    (by norm_num [constTensor]) rfl rfl rfl rfl
    (by norm_num [constTensor]) (by norm_num [constTensor])
    (by norm_num [constTensor]) (by norm_num [constTensor])
  refine ⟨h.1 ?_, h.2 ?_⟩
  · intro n _ c _ hh _ w _
    unfold constTensor MIN_LIKELIHOOD
    norm_num
  · intro n _ c _ hh _ w _
    unfold constTensor MIN_LIKELIHOOD MAX_LIKELIHOOD
    norm_num

/-- C1 (code defect): with the training flag false, `Hyperprior.forward`
does not complete.  The non-training branch of the source assigns the
misspelled local `latents_decoder`, so building `HyperInfo` reads the
unbound local `latents_decoded` and raises `UnboundLocalError` instead of
returning the hard-quantized latents as `decoded`. -/
theorem forward_inference_unbound_local (chans : ℕ → Cascade 1)
    (analysis_net synthesis_mu synthesis_std : Tensor → Tensor)
    (noiseH noiseL : ℕ → ℕ → ℕ → ℕ → ℝ) (latents : Tensor) :
    Hyperprior.forward chans analysis_net synthesis_mu synthesis_std
        noiseH noiseL false latents =
      .error "UnboundLocalError: latents_decoded" := by
  rfl

/-- C10: in training phase, `Hyperprior.forward` on an `(N,C,16,16)` input
returns a record whose `total_nbpp` is exactly
`latent_nbpp + hyperlatent_nbpp` and whose decoded tensor has the shape of
the input. -/
theorem forward_training_totals_and_shape (chans : ℕ → Cascade 1)
    (analysis_net synthesis_mu synthesis_std : Tensor → Tensor)
    (noiseH noiseL : ℕ → ℕ → ℕ → ℕ → ℝ) (latents : Tensor)
    (hH : latents.H = 16) (hW : latents.W = 16) :
    ∃ info : HyperInfo,
      Hyperprior.forward chans analysis_net synthesis_mu synthesis_std
          noiseH noiseL true latents = .ok info ∧
        info.total_nbpp = info.latent_nbpp + info.hyperlatent_nbpp ∧
        info.decoded.N = latents.N ∧ info.decoded.C = latents.C ∧
        info.decoded.H = 16 ∧ info.decoded.W = 16 := by
  refine ⟨_, rfl, rfl, rfl, rfl, ?_, ?_⟩
  · exact hH
  · exact hW

/-- Witness for C10 at a concrete `(2,3,16,16)` input with trivial external
networks and zero noise. -/
theorem forward_training_witness :
    ∃ info : HyperInfo,
      Hyperprior.forward (fun _ => Cascade.nil) id id id
          (fun _ _ _ _ => 0) (fun _ _ _ _ => 0) true
          (constTensor 2 3 16 16 0) = .ok info ∧
        info.total_nbpp = info.latent_nbpp + info.hyperlatent_nbpp ∧
        info.decoded.N = (constTensor 2 3 16 16 0).N ∧
        info.decoded.C = (constTensor 2 3 16 16 0).C ∧
        info.decoded.H = 16 ∧ info.decoded.W = 16 :=
  forward_training_totals_and_shape (fun _ => Cascade.nil) id id id
    (fun _ _ _ _ => 0) (fun _ _ _ _ => 0) (constTensor 2 3 16 16 0) rfl rfl
